import Mathlib

/-!
Verification of the sQLux-nextp8 instruction profiler.

This file shallowly embeds the profiler core of the repository:

* the event codec (`profiler_data.h`: `MakeEvent`, `GetEventType`,
  `GetReturnOffset`, `GetEventAddress`) and the recorder-side encodings
  (`profiler_events.h`);
* the call-graph builder `ProfilerData` and its event handlers
  (`profiler_data.cpp`);
* the function grouper `ConvertToGroupedData` (`profiler_grouped.cpp`)
  together with `GroupedProfilerData`;
* the Callgrind serializer's line generation (`profiler_callgrind.cpp`);
* the client-side event buffer mechanics (`profiler_events.h`,
  `profiler_client.cpp`, `profiler_consumer.h`).

Modelling conventions:

* `std::map<uint32_t, V>` is embedded as an association list
  `List (Nat × V)` kept sorted by key; `operator[]`-and-mutate becomes
  `alistUpdate`, which inserts a default-constructed value at the sorted
  position when the key is absent.
* `std::set<uint32_t>` is embedded as a sorted `List Nat` without
  duplicates, built with `sortedInsert`.
* The C++ `CallFrame` stores a live reference to the `CallInfo` record
  `instruction_costs_[caller_pc].calls[address]`; map references are
  stable in C++, so the reference is represented by its (stable) key pair
  `(caller_pc, address)`, resolved through a lookup at update time.
  Likewise the frame's `jump_refs` map is represented by the list of its
  `(source, target)` keys: the set of keys determines the referenced
  records, and the only operations performed on it are keyed insertion
  (`insert_or_assign`, a no-op on a present key) and iteration of
  commuting increments.
* Machine integers are `Nat`; the only place where 32-bit wrap-around is
  reachable is the computed return address `current_pc_ + 2 +
  return_offset`, which carries an explicit `% 2 ^ 32`.  The 64-bit cost
  counters cannot overflow on any stream short enough to be physically
  produced, and are embedded as unbounded `Nat`.
-/

namespace Profiler

/-- Lookup in an association list (first match), embedding `std::map::find`. -/
def alistLookup {α : Type} (k : Nat) : List (Nat × α) → Option α
  | [] => none
  | (k', v) :: rest => if k = k' then some v else alistLookup k rest

/-- Embedding of `map[k]` followed by a mutation `f` of the mapped value:
if the key is absent a default-constructed value `d` is inserted at its
sorted position and `f` is applied to it, otherwise `f` is applied to the
stored value in place. -/
def alistUpdate {α : Type} (k : Nat) (f : α → α) (d : α) : List (Nat × α) → List (Nat × α)
  | [] => [(k, f d)]
  | (k', v) :: rest =>
    if k < k' then (k, f d) :: (k', v) :: rest
    else if k = k' then (k', f v) :: rest
    else (k', v) :: alistUpdate k f d rest

/-- Embedding of `std::set<uint32_t>::insert` on a sorted duplicate-free list. -/
def sortedInsert (k : Nat) : List Nat → List Nat
  | [] => [k]
  | x :: rest =>
    if k < x then k :: x :: rest
    else if k = x then x :: rest
    else x :: sortedInsert k rest

/-- Embedding of `std::set<std::pair<uint32_t,uint32_t>>::insert`;
only membership in this set is ever observed, so the insertion point is
immaterial and a duplicate-free list suffices. -/
def pairInsert (p : Nat × Nat) (l : List (Nat × Nat)) : List (Nat × Nat) :=
  if p ∈ l then l else l ++ [p]

/-- Event types from `profiler_data.h` (`enum class EventType`). -/
inductive EventType where
  | INSTR_EXECUTE
  | JUMP
  | CALL
  | RETURN
  | DATA_READ
  | DATA_WRITE
  | INSTR_READ
deriving Repr, DecidableEq

/-- Numeric value of each enumerator, as fixed in `profiler_data.h`. -/
def EventType.toUint : EventType → Nat
  | .INSTR_EXECUTE => 0x00
  | .JUMP => 0x01
  | .CALL => 0x02
  | .RETURN => 0x03
  | .DATA_READ => 0x04
  | .DATA_WRITE => 0x05
  | .INSTR_READ => 0x06

/-- `GetEventType` from `profiler_data.h`: `(event >> 28) & 0xF`.
The C++ function casts the extracted nibble to `EventType`; the cast is
value-preserving, so the embedding works with the numeric code. -/
def GetEventType (event : Nat) : Nat :=
  (event >>> 28) &&& 0xF

/-- `GetReturnOffset` from `profiler_data.h`: `(event >> 24) & 0xF`. -/
def GetReturnOffset (event : Nat) : Nat :=
  (event >>> 24) &&& 0xF

/-- `GetEventAddress` from `profiler_data.h`: `event & 0x00FFFFFF`. -/
def GetEventAddress (event : Nat) : Nat :=
  event &&& 0x00FFFFFF

/-- `MakeEvent` from `profiler_data.h`:
`(static_cast<uint32_t>(type) << 24) | (address & 0x00FFFFFF)`. -/
def MakeEvent (type : EventType) (address : Nat) : Nat :=
  (type.toUint <<< 24) ||| (address &&& 0x00FFFFFF)

/-- Event word written by `Profiler_RecordInstructionExecute`
(`profiler_events.h`): `(address & 0xffffff) | 0x00000000`. -/
def RecordInstructionExecuteEvent (address : Nat) : Nat :=
  (address &&& 0xffffff) ||| 0x00000000

/-- Event word written by `Profiler_RecordJump`: `(address & 0xffffff) | 0x10000000`. -/
def RecordJumpEvent (address : Nat) : Nat :=
  (address &&& 0xffffff) ||| 0x10000000

/-- Event word written by `Profiler_RecordCall`:
`(address & 0xffffff) | 0x20000000 | (return_offset << 24)` in `uint32_t`
arithmetic. -/
def RecordCallEvent (address return_offset : Nat) : Nat :=
  (address &&& 0xffffff) ||| 0x20000000 ||| ((return_offset <<< 24) % 2 ^ 32)

/-- Event word written by `Profiler_RecordReturn`: `(address & 0xffffff) | 0x30000000`. -/
def RecordReturnEvent (address : Nat) : Nat :=
  (address &&& 0xffffff) ||| 0x30000000

/-- Event word written by `Profiler_RecordDataRead`: `(address & 0xffffff) | 0x40000000`. -/
def RecordDataReadEvent (address : Nat) : Nat :=
  (address &&& 0xffffff) ||| 0x40000000

/-- Event word written by `Profiler_RecordDataWrite`: `(address & 0xffffff) | 0x50000000`. -/
def RecordDataWriteEvent (address : Nat) : Nat :=
  (address &&& 0xffffff) ||| 0x50000000

/-- Event word written by `Profiler_RecordInstrRead`: `(address & 0xffffff) | 0x60000000`. -/
def RecordInstrReadEvent (address : Nat) : Nat :=
  (address &&& 0xffffff) ||| 0x60000000

/-- `InstructionCost::CallInfo` from `profiler_data.h`. -/
structure CallInfo where
  call_count : Nat
  inclusive_instructions : Nat
  inclusive_instr_fetches : Nat
  inclusive_data_reads : Nat
  inclusive_data_writes : Nat
deriving Repr, DecidableEq

/-- Default-constructed `CallInfo` (all counters zero). -/
def defaultCallInfo : CallInfo :=
  ⟨0, 0, 0, 0, 0⟩

/-- `InstructionCost` from `profiler_data.h`. -/
structure InstructionCost where
  self_cost : Nat
  instr_fetches : Nat
  data_reads : Nat
  data_writes : Nat
  calls : List (Nat × CallInfo)
  jumps : List (Nat × CallInfo)
deriving Repr, DecidableEq

/-- Default-constructed `InstructionCost` (zero counters, empty maps). -/
def defaultInstructionCost : InstructionCost :=
  ⟨0, 0, 0, 0, [], []⟩

/-- `CallFrame` from `profiler_data.h`.  The C++ member
`call_info : InstructionCost::CallInfo&` always references
`instruction_costs_[caller_pc].calls[address]`, so it is represented by
that stable key; `jump_refs` is represented by its list of
`(source, target)` keys. -/
structure CallFrame where
  address : Nat
  caller_pc : Nat
  return_address : Nat
  jump_refs : List (Nat × Nat)
deriving Repr, DecidableEq

/-- `ProfilerData` state from `profiler_data.h`: the cost table, the live
call stack (innermost frame last, matching `std::vector::back`), the
current instruction pointer, and the running instruction counter. -/
structure ProfilerData where
  instruction_costs : List (Nat × InstructionCost)
  call_stack : List CallFrame
  current_pc : Nat
  total_instructions : Nat
deriving Repr, DecidableEq

/-- The state after `ProfilerData::ProfilerData()` or `ProfilerData::Clear()`:
empty cost table, empty stack, `current_pc_ = 0`, `total_instructions_ = 0`. -/
def ProfilerData.cleared : ProfilerData :=
  ⟨[], [], 0, 0⟩

/-- Mutation `instruction_costs_[src].calls[tgt]` followed by `f` on the
resulting `CallInfo` record. -/
def bumpCallAt (src tgt : Nat) (f : CallInfo → CallInfo)
    (costs : List (Nat × InstructionCost)) : List (Nat × InstructionCost) :=
  alistUpdate src
    (fun ic => { ic with calls := alistUpdate tgt f defaultCallInfo ic.calls })
    defaultInstructionCost costs

/-- Mutation `instruction_costs_[src].jumps[tgt]` followed by `f` on the
resulting `CallInfo` record. -/
def bumpJumpAt (src tgt : Nat) (f : CallInfo → CallInfo)
    (costs : List (Nat × InstructionCost)) : List (Nat × InstructionCost) :=
  alistUpdate src
    (fun ic => { ic with jumps := alistUpdate tgt f defaultCallInfo ic.jumps })
    defaultInstructionCost costs

/-- Increment of `call_count`. -/
def incrCount (ci : CallInfo) : CallInfo :=
  { ci with call_count := ci.call_count + 1 }

/-- Increment of `inclusive_instructions`. -/
def incrInclInstr (ci : CallInfo) : CallInfo :=
  { ci with inclusive_instructions := ci.inclusive_instructions + 1 }

/-- Increment of `inclusive_instr_fetches`. -/
def incrInclFetch (ci : CallInfo) : CallInfo :=
  { ci with inclusive_instr_fetches := ci.inclusive_instr_fetches + 1 }

/-- Increment of `inclusive_data_reads`. -/
def incrInclRead (ci : CallInfo) : CallInfo :=
  { ci with inclusive_data_reads := ci.inclusive_data_reads + 1 }

/-- Increment of `inclusive_data_writes`. -/
def incrInclWrite (ci : CallInfo) : CallInfo :=
  { ci with inclusive_data_writes := ci.inclusive_data_writes + 1 }

/-- The propagation loop shared by `ProcessInstructionExecute`,
`ProcessDataRead`, `ProcessDataWrite` and `ProcessInstrRead`: for every
frame on the stack, apply the counter increment `f` to the frame's
`call_info` record and to every active jump edge registered in the frame. -/
def bumpInclusive (f : CallInfo → CallInfo) (stack : List CallFrame)
    (costs : List (Nat × InstructionCost)) : List (Nat × InstructionCost) :=
  stack.foldl
    (fun cs fr =>
      fr.jump_refs.foldl (fun cs' p => bumpJumpAt p.1 p.2 f cs')
        (bumpCallAt fr.caller_pc fr.address f cs))
    costs

/-- Apply a function to the last element of a list, embedding a mutation
of `call_stack_.back()`. -/
def updateLast {α : Type} (f : α → α) : List α → List α
  | [] => []
  | [x] => [f x]
  | x :: y :: rest => x :: updateLast f (y :: rest)

/-- `ProfilerData::ProcessInstructionExecute` from `profiler_data.cpp`. -/
def ProcessInstructionExecute (d : ProfilerData) (address : Nat) : ProfilerData :=
  let costs1 := alistUpdate address
    (fun ic => { ic with self_cost := ic.self_cost + 1 }) defaultInstructionCost
    d.instruction_costs
  let total1 := d.total_instructions + 1
  let stack1 :=
    if d.call_stack.isEmpty then d.call_stack ++ [⟨address, 0, 0, []⟩] else d.call_stack
  let costs2 :=
    if d.call_stack.isEmpty then bumpCallAt 0 address incrCount costs1 else costs1
  { instruction_costs := bumpInclusive incrInclInstr stack1 costs2,
    call_stack := stack1,
    current_pc := address,
    total_instructions := total1 }

/-- `ProfilerData::ProcessJump` from `profiler_data.cpp`. -/
def ProcessJump (d : ProfilerData) (address : Nat) : ProfilerData :=
  let costs1 := bumpJumpAt d.current_pc address incrCount d.instruction_costs
  let stack1 :=
    if d.call_stack.isEmpty then d.call_stack
    else updateLast
      (fun fr => { fr with jump_refs := pairInsert (d.current_pc, address) fr.jump_refs })
      d.call_stack
  { d with instruction_costs := costs1, call_stack := stack1, current_pc := address }

/-- `ProfilerData::ProcessCall` from `profiler_data.cpp`.  The expected
return address `current_pc_ + 2 + return_offset` is computed in `uint32_t`
arithmetic. -/
def ProcessCall (d : ProfilerData) (address return_offset : Nat) : ProfilerData :=
  let costs1 := bumpCallAt d.current_pc address
    (fun ci => if d.current_pc ≠ 0 then incrCount ci else ci) d.instruction_costs
  let frame : CallFrame :=
    ⟨address, d.current_pc, (d.current_pc + 2 + return_offset) % 2 ^ 32, []⟩
  { d with instruction_costs := costs1,
           call_stack := d.call_stack ++ [frame],
           current_pc := address }

/-- `ProfilerData::ProcessReturn` from `profiler_data.cpp`: pop one frame
on a normal return, unwind through the topmost matching frame on a
longjmp, and pop the whole stack when no frame matches. -/
def ProcessReturn (d : ProfilerData) (address : Nat) : ProfilerData :=
  match d.call_stack.getLast? with
  | none => { d with current_pc := address }
  | some top =>
    if top.return_address = address then
      { d with call_stack := d.call_stack.dropLast, current_pc := address }
    else
      let stack1 :=
        match d.call_stack.reverse.findIdx? (fun fr => fr.return_address == address) with
        | some k => d.call_stack.take (d.call_stack.length - (k + 1))
        | none => []
      { d with call_stack := stack1, current_pc := address }

/-- `ProfilerData::ProcessDataRead` from `profiler_data.cpp`; the event
address argument is unused by the source as well. -/
def ProcessDataRead (d : ProfilerData) (_address : Nat) : ProfilerData :=
  let costs1 :=
    if d.current_pc ≠ 0 then
      alistUpdate d.current_pc
        (fun ic => { ic with data_reads := ic.data_reads + 1 }) defaultInstructionCost
        d.instruction_costs
    else d.instruction_costs
  { d with instruction_costs := bumpInclusive incrInclRead d.call_stack costs1 }

/-- `ProfilerData::ProcessDataWrite` from `profiler_data.cpp`. -/
def ProcessDataWrite (d : ProfilerData) (_address : Nat) : ProfilerData :=
  let costs1 :=
    if d.current_pc ≠ 0 then
      alistUpdate d.current_pc
        (fun ic => { ic with data_writes := ic.data_writes + 1 }) defaultInstructionCost
        d.instruction_costs
    else d.instruction_costs
  { d with instruction_costs := bumpInclusive incrInclWrite d.call_stack costs1 }

/-- `ProfilerData::ProcessInstrRead` from `profiler_data.cpp`. -/
def ProcessInstrRead (d : ProfilerData) (_address : Nat) : ProfilerData :=
  let costs1 :=
    if d.current_pc ≠ 0 then
      alistUpdate d.current_pc
        (fun ic => { ic with instr_fetches := ic.instr_fetches + 1 }) defaultInstructionCost
        d.instruction_costs
    else d.instruction_costs
  { d with instruction_costs := bumpInclusive incrInclFetch d.call_stack costs1 }

/-- `ProfilerData::ProcessEvent` from `profiler_data.cpp`: decode and
dispatch on the event type; a type code outside the enumeration matches no
`case` label and leaves the state unchanged. -/
def ProcessEvent (d : ProfilerData) (event : Nat) : ProfilerData :=
  match GetEventType event with
  | 0 => ProcessInstructionExecute d (GetEventAddress event)
  | 1 => ProcessJump d (GetEventAddress event)
  | 2 => ProcessCall d (GetEventAddress event) (GetReturnOffset event)
  | 3 => ProcessReturn d (GetEventAddress event)
  | 4 => ProcessDataRead d (GetEventAddress event)
  | 5 => ProcessDataWrite d (GetEventAddress event)
  | 6 => ProcessInstrRead d (GetEventAddress event)
  | _ => d

/-- Processing of a finite event stream in order, as done by
`BufferConsumer::ProcessBuffer` draining a buffer into `ProfilerData`. -/
def processEvents (events : List Nat) (d : ProfilerData) : ProfilerData :=
  events.foldl ProcessEvent d

/-- `FunctionCall` from `profiler_grouped.h`. -/
structure FunctionCall where
  caller_address : Nat
  target_function : Nat
  call_count : Nat
  inclusive_instructions : Nat
  inclusive_instr_fetches : Nat
  inclusive_data_reads : Nat
  inclusive_data_writes : Nat
deriving Repr, DecidableEq

/-- `GroupedFunction` from `profiler_grouped.h`; a `GroupedInstruction` is
the pair of an address and its `InstructionCost`. -/
structure GroupedFunction where
  entry_address : Nat
  instructions : List (Nat × InstructionCost)
  calls : List FunctionCall
  total_self_instructions : Nat
  total_self_instr_fetches : Nat
  total_self_data_reads : Nat
  total_self_data_writes : Nat
deriving Repr, DecidableEq

/-- `GroupedProfilerData` from `profiler_grouped.h`: the function map, the
`entry_points_` set and the grand total.  `entry_points_` is
default-constructed empty by `GroupedProfilerData::GroupedProfilerData()`. -/
structure GroupedProfilerData where
  functions : List (Nat × GroupedFunction)
  entry_points : List Nat
  total_instructions : Nat
deriving Repr, DecidableEq

/-- `GroupedProfilerData::GetEntryPoints` from `profiler_grouped.h`. -/
def GroupedProfilerData.GetEntryPoints (g : GroupedProfilerData) : List Nat :=
  g.entry_points

/-- Seeding pass of `ConvertToGroupedData` (`profiler_grouped.cpp`): insert
every call target found anywhere in the cost table into the
`function_entries` set. -/
def collectSeeds (costs : List (Nat × InstructionCost)) : List Nat :=
  costs.foldl (fun s e => e.2.calls.foldl (fun s' c => sortedInsert c.1 s') s) []

/-- Embedding of the window test
`function_entries.upper_bound(min_addr) != function_entries.lower_bound(max_addr)`:
on the ordered set this holds exactly when some element lies strictly
between `lo` and `hi`. -/
def entryBetween (entries : List Nat) (lo hi : Nat) : Bool :=
  entries.any (fun e => lo < e && e < hi)

/-- Processing of one cost-table entry's recorded jumps by the single
ordered pass: for each jump out of `source` whose source-target window
contains a currently known entry, promote the target to a function entry
and remember the jump as boundary-crossing. -/
def jumpPassInner (source : Nat) (st : List Nat × List (Nat × Nat))
    (jl : List (Nat × CallInfo)) : List Nat × List (Nat × Nat) :=
  jl.foldl
    (fun (st' : List Nat × List (Nat × Nat)) j =>
      if entryBetween st'.1 (min source j.1) (max source j.1) then
        (sortedInsert j.1 st'.1, pairInsert (source, j.1) st'.2)
      else st')
    st

/-- The single ordered jump pass of `ConvertToGroupedData`: walk the cost
table in ascending address order, processing each entry's jumps in turn. -/
def jumpPass (costs : List (Nat × InstructionCost)) (seeds : List Nat) :
    List Nat × List (Nat × Nat) :=
  costs.foldl (fun st e => jumpPassInner e.1 st e.2.jumps) (seeds, [])

/-- The complete `function_entries` set computed by `ConvertToGroupedData`
for a given cost table. -/
def functionEntries (costs : List (Nat × InstructionCost)) : List Nat :=
  (jumpPass costs (collectSeeds costs)).1

/-- The boundary-crossing jump set computed by `ConvertToGroupedData`. -/
def crossBoundaryJumps (costs : List (Nat × InstructionCost)) : List (Nat × Nat) :=
  (jumpPass costs (collectSeeds costs)).2

/-- Maximum of a list of naturals, used to embed the ordered-set
predecessor query `--upper_bound(address)`. -/
def listMax : List Nat → Option Nat
  | [] => none
  | x :: rest =>
    match listMax rest with
    | none => some x
    | some m => some (Nat.max x m)

/-- Owner computation of `ConvertToGroupedData`: the largest function entry
`≤ address` (`--upper_bound(address)` on the ordered entry set), or the
address itself when no entry lies at or below it. -/
def findOwner (entries : List Nat) (address : Nat) : Nat :=
  (listMax (entries.filter (fun e => e ≤ address))).getD address

/-- The `instruction_to_function` map of `ConvertToGroupedData`, built for
every address of the cost table. -/
def instructionToFunction (costs : List (Nat × InstructionCost)) (entries : List Nat) :
    List (Nat × Nat) :=
  costs.map (fun e => (e.1, findOwner entries e.1))

/-- Append a value to the bucket of `k` in a sorted map of lists, embedding
`temp_functions[func_addr].push_back(...)` and
`calls_by_address[addr].push_back(...)`. -/
def mlistAppend {α : Type} (k : Nat) (v : α) (m : List (Nat × List α)) :
    List (Nat × List α) :=
  alistUpdate k (fun l => l ++ [v]) [] m

/-- The `temp_functions` grouping pass of `ConvertToGroupedData`: push every
cost-table entry into the bucket of its owning function. -/
def groupByOwner (costs : List (Nat × InstructionCost)) (entries : List Nat) :
    List (Nat × List (Nat × InstructionCost)) :=
  costs.foldl (fun m e => mlistAppend (findOwner entries e.1) e m) []

/-- Emission of one `FunctionCall` per call edge of an instruction whose
target address resolves through `instruction_to_function`, following the
call loop of `ConvertToGroupedData`. -/
def emitFunctionCalls (i2f : List (Nat × Nat)) (addr : Nat) (f : GroupedFunction)
    (cl : List (Nat × CallInfo)) : GroupedFunction :=
  cl.foldl
    (fun f' ce =>
      match alistLookup ce.1 i2f with
      | some target_func =>
        { f' with calls := f'.calls ++
          [⟨addr, target_func, ce.2.call_count, ce.2.inclusive_instructions,
            ce.2.inclusive_instr_fetches, ce.2.inclusive_data_reads,
            ce.2.inclusive_data_writes⟩] }
      | none => f')
    f

/-- Emission of one synthesized `FunctionCall` per boundary-crossing jump
edge of an instruction whose target address resolves through
`instruction_to_function`, following the jump loop of
`ConvertToGroupedData`. -/
def emitJumpCalls (i2f : List (Nat × Nat)) (cross : List (Nat × Nat)) (addr : Nat)
    (f : GroupedFunction) (jl : List (Nat × CallInfo)) : GroupedFunction :=
  jl.foldl
    (fun f' je =>
      if (addr, je.1) ∈ cross then
        match alistLookup je.1 i2f with
        | some target_func =>
          { f' with calls := f'.calls ++
            [⟨addr, target_func, je.2.call_count, je.2.inclusive_instructions,
              je.2.inclusive_instr_fetches, je.2.inclusive_data_reads,
              je.2.inclusive_data_writes⟩] }
        | none => f'
      else f')
    f

/-- One iteration of the per-instruction loop of `ConvertToGroupedData`:
append the instruction, accumulate the self totals, then emit the call
edges and the boundary-crossing jump edges recorded at this address. -/
def buildStep (i2f : List (Nat × Nat)) (cross : List (Nat × Nat))
    (f : GroupedFunction) (instr : Nat × InstructionCost) : GroupedFunction :=
  let f1 : GroupedFunction :=
    { f with
      instructions := f.instructions ++ [instr],
      total_self_instructions := f.total_self_instructions + instr.2.self_cost,
      total_self_instr_fetches := f.total_self_instr_fetches + instr.2.instr_fetches,
      total_self_data_reads := f.total_self_data_reads + instr.2.data_reads,
      total_self_data_writes := f.total_self_data_writes + instr.2.data_writes }
  emitJumpCalls i2f cross instr.1
    (emitFunctionCalls i2f instr.1 f1 instr.2.calls) instr.2.jumps

/-- Construction of one `GroupedFunction` from its bucket, following the
per-instruction loop of `ConvertToGroupedData`. -/
def buildGroupedFunction (i2f : List (Nat × Nat)) (cross : List (Nat × Nat))
    (func_addr : Nat) (instrs : List (Nat × InstructionCost)) : GroupedFunction :=
  instrs.foldl (buildStep i2f cross) ⟨func_addr, [], [], 0, 0, 0, 0⟩

/-- `ConvertToGroupedData` from `profiler_grouped.cpp`.  The final function
map is obtained by one `AddFunction` call per `temp_functions` bucket, in
ascending key order; since the bucket keys are the distinct keys of a
sorted map, this is the image of the bucket map.  `entry_points_` keeps
its default-constructed (empty) value: `ConvertToGroupedData` is the only
friend with access to it and never inserts into it. -/
def ConvertToGroupedData (data : ProfilerData) : GroupedProfilerData :=
  let costs := data.instruction_costs
  if costs.isEmpty then
    { functions := [], entry_points := [], total_instructions := data.total_instructions }
  else
    let entries := functionEntries costs
    let cross := crossBoundaryJumps costs
    let i2f := instructionToFunction costs entries
    let temp := groupByOwner costs entries
    { functions := temp.map (fun b => (b.1, buildGroupedFunction i2f cross b.1 b.2)),
      entry_points := [],
      total_instructions := data.total_instructions }

/-- Position field of a Callgrind cost line: absolute address, positive or
negative delta, or `*` for a repeated address. -/
inductive AddrField where
  | abs (address : Nat)
  | plus (delta : Nat)
  | minus (delta : Nat)
  | star
deriving Repr, DecidableEq

/-- One line of the Callgrind body, as written by
`CallgrindSerializer::WriteBody`.  A cost line is represented by its
position field followed by the list of numeric fields in the order they
are printed. -/
inductive CgLine where
  | fnLine (address : Nat)
  | instrCost (pos : AddrField) (fields : List Nat)
  | cfnLine (target : Nat)
  | callsCountLine (count : Nat) (target : Nat)
  | callCost (pos : AddrField) (fields : List Nat)
  | blank
deriving Repr, DecidableEq

/-- Position encoding of `WriteBody`: absolute while `last_address == 0`,
then `+N`/`-N` for deltas within ±1000, `*` for a repeat, and absolute
otherwise. -/
def addrField (last_address address : Nat) : AddrField :=
  if last_address = 0 then .abs address
  else
    let diff : Int := (address : Int) - (last_address : Int)
    if 0 < diff ∧ diff ≤ 1000 then .plus (address - last_address)
    else if diff < 0 ∧ -1000 ≤ diff then .minus (last_address - address)
    else if diff = 0 then .star
    else .abs address

/-- The `calls_by_address` map of `WriteBody`: the function's outgoing
calls bucketed by caller address, in original order. -/
def callsByAddress (calls : List FunctionCall) : List (Nat × List FunctionCall) :=
  calls.foldl (fun m c => mlistAppend c.caller_address c m) []

/-- Emission of the `cfn=`/`calls=`/cost-line triple for every call
recorded at the instruction just written; the caller-address cost line is
absolute and updates `last_address`. -/
def emitCallsAt (st : Nat × List CgLine) (cs : List FunctionCall) : Nat × List CgLine :=
  cs.foldl
    (fun st' c =>
      let incl_cycles := c.inclusive_instructions + c.inclusive_instr_fetches * 3 +
        c.inclusive_data_reads * 3 + c.inclusive_data_writes * 3
      (c.caller_address,
       st'.2 ++
         [.cfnLine c.target_function,
          .callsCountLine c.call_count c.target_function,
          .callCost (.abs c.caller_address)
            [incl_cycles, c.inclusive_instructions, c.inclusive_data_reads,
             c.inclusive_data_writes]]))
    st

/-- Emission of one instruction's cost line (cycles, instructions, data
reads, data writes, with cycles `= self + 3·fetches + 3·reads + 3·writes`)
followed by its outgoing-call lines. -/
def emitInstr (cba : List (Nat × List FunctionCall)) (st : Nat × List CgLine)
    (instr : Nat × InstructionCost) : Nat × List CgLine :=
  let address := instr.1
  let cost := instr.2
  let cycles := cost.self_cost + cost.instr_fetches * 3 + cost.data_reads * 3 +
    cost.data_writes * 3
  let st1 : Nat × List CgLine :=
    (address,
     st.2 ++ [.instrCost (addrField st.1 address)
       [cycles, cost.self_cost, cost.data_reads, cost.data_writes]])
  match alistLookup address cba with
  | some cs => emitCallsAt st1 cs
  | none => st1

/-- Emission of one function's block: the `fn=` line, the per-instruction
cost lines threaded through the `last_address` cursor starting at 0, and
the trailing blank line. -/
def emitFunction (fe : Nat × GroupedFunction) : List CgLine :=
  CgLine.fnLine fe.1 ::
    (fe.2.instructions.foldl (emitInstr (callsByAddress fe.2.calls)) (0, [])).2 ++
    [CgLine.blank]

/-- `CallgrindSerializer::WriteBody` from `profiler_callgrind.cpp`, as the
list of emitted lines. -/
def WriteBody (data : GroupedProfilerData) : List CgLine :=
  if data.functions.isEmpty then []
  else (data.functions.map emitFunction).flatten

/-- The totals fold of `CallgrindSerializer::WriteHeader`: accumulate the
four per-function self totals across all functions. -/
def summaryTotals (data : GroupedProfilerData) : Nat × Nat × Nat × Nat :=
  data.functions.foldl
    (fun t fe =>
      (t.1 + fe.2.total_self_instructions,
       t.2.1 + fe.2.total_self_instr_fetches,
       t.2.2.1 + fe.2.total_self_data_reads,
       t.2.2.2 + fe.2.total_self_data_writes))
    (0, 0, 0, 0)

/-- The four numeric fields of the `summary:` line written by
`WriteHeader`: total cycles (`instructions + 3·fetches + 3·reads +
3·writes`), instructions, data reads, data writes. -/
def summaryLine (data : GroupedProfilerData) : List Nat :=
  let t := summaryTotals data
  [t.1 + t.2.1 * 3 + t.2.2.1 * 3 + t.2.2.2 * 3, t.1, t.2.2.1, t.2.2.2]

/-- State of the client-side event buffering (`profiler_events.h`,
`profiler_client.cpp`): the buffers already pushed to the filled queue in
push order, the events written to the current buffer so far (the
`profiler_current_buffer_ptr` cursor is its length), and the number of
`Profiler_SwitchBuffer` invocations. -/
structure ClientState where
  filled : List (List Nat)
  current : List Nat
  switches : Nat
deriving Repr, DecidableEq

/-- `BUFFER_SIZE` from `profiler_consumer.h`: 8192 events per buffer. -/
def BUFFER_SIZE : Nat := 8192

/-- A freshly initialized client: first empty buffer acquired, cursor at
its start, no switches yet. -/
def ClientState.fresh : ClientState :=
  ⟨[], [], 0⟩

/-- The store-and-check tail shared by every recorder function in
`profiler_events.h`: write the event word at the cursor, advance, and when
the cursor reaches the buffer end invoke `Profiler_SwitchBuffer`, which
pushes the filled buffer and acquires a fresh empty one. -/
def recordEvent (s : ClientState) (e : Nat) : ClientState :=
  let cur := s.current ++ [e]
  if cur.length = BUFFER_SIZE then
    ⟨s.filled ++ [cur], [], s.switches + 1⟩
  else
    ⟨s.filled, cur, s.switches⟩

/-- One invocation of a recorder function, carrying its arguments. -/
inductive RecorderCall where
  | instrExecute (address : Nat)
  | jump (address : Nat)
  | call (address return_offset : Nat)
  | ret (address : Nat)
  | dataRead (address : Nat)
  | dataWrite (address : Nat)
  | instrRead (address : Nat)
deriving Repr, DecidableEq

/-- The event word a recorder invocation writes, per `profiler_events.h`. -/
def RecorderCall.encoded : RecorderCall → Nat
  | .instrExecute a => RecordInstructionExecuteEvent a
  | .jump a => RecordJumpEvent a
  | .call a r => RecordCallEvent a r
  | .ret a => RecordReturnEvent a
  | .dataRead a => RecordDataReadEvent a
  | .dataWrite a => RecordDataWriteEvent a
  | .instrRead a => RecordInstrReadEvent a

/-- Execution of one recorder function from `profiler_events.h`. -/
def applyRecorder (s : ClientState) (c : RecorderCall) : ClientState :=
  recordEvent s c.encoded

/-- Execution of a sequence of recorder invocations on the emitting thread. -/
def applyRecorders (cs : List RecorderCall) (s : ClientState) : ClientState :=
  cs.foldl applyRecorder s

/-- Sum of `self_cost` over the instruction-cost table, as computed by the
invariant checker's summation loop. -/
def sumSelf (costs : List (Nat × InstructionCost)) : Nat :=
  (costs.map (fun e => e.2.self_cost)).sum

/-- The `call_count` of the synthetic root call edge `0 → b`
(`instruction_costs_[0].calls[b]`) in a cost table, or 0 when the edge
does not exist. -/
def rootCallCountTable (costs : List (Nat × InstructionCost)) (b : Nat) : Nat :=
  match alistLookup 0 costs with
  | some ic =>
    match alistLookup b ic.calls with
    | some ci => ci.call_count
    | none => 0
  | none => 0

/-- The `call_count` of the synthetic root call edge `0 → b` in a profiler
state. -/
def rootCallCount (d : ProfilerData) (b : Nat) : Nat :=
  rootCallCountTable d.instruction_costs b

/-- All values stored in a map of lists, in bucket order. -/
def mvalues {α : Type} (m : List (Nat × List α)) : List α :=
  (m.map Prod.snd).flatten

/-- Every instruction address appearing in any `GroupedFunction`'s
instruction list, with multiplicity. -/
def allInstrAddrs (g : GroupedProfilerData) : List Nat :=
  (g.functions.map (fun fe => fe.2.instructions.map Prod.fst)).flatten

/-- Specification-side owner predicate: `k` owns address `a` when `k` is
the largest entry point `≤ a`, or `k = a` and no entry point lies at or
below `a`. -/
def IsOwner (entries : List Nat) (a k : Nat) : Prop :=
  (k ∈ entries ∧ k ≤ a ∧ ∀ e ∈ entries, e ≤ a → e ≤ k) ∨
  (k = a ∧ ∀ e ∈ entries, ¬ e ≤ a)

/-- Whether the cost table records a jump from source `s` to target `t`. -/
def jumpRecorded (costs : List (Nat × InstructionCost)) (s t : Nat) : Bool :=
  match alistLookup s costs with
  | some ic => (alistLookup t ic.jumps).isSome
  | none => false

/-- Profiler state after executing one instruction at `0x2000`
(concrete fixture). -/
def sampleCallSiteState : ProfilerData :=
  processEvents [RecordInstructionExecuteEvent 0x2000] ProfilerData.cleared

/-- Profiler state with a two-frame stack: a synthetic root at `0x1000`
and a called frame expecting return `0x1002` (concrete fixture). -/
def sampleDesyncState : ProfilerData :=
  processEvents
    [RecordInstructionExecuteEvent 0x1000, RecordCallEvent 0x2000 0]
    ProfilerData.cleared

/-- Profiler state whose cost table records a call to `0x500`, a jump
`0x100 → 0x200` and a jump `0x600 → 0x150` (concrete fixture). -/
def sampleJumpState : ProfilerData :=
  processEvents
    [RecordInstructionExecuteEvent 0x50, RecordCallEvent 0x500 0,
     RecordInstructionExecuteEvent 0x100, RecordJumpEvent 0x200,
     RecordInstructionExecuteEvent 0x600, RecordJumpEvent 0x150]
    ProfilerData.cleared

/-- A one-function grouped data set with a single instruction of self cost
2, one fetch, no data traffic (concrete fixture). -/
def sampleGrouped : GroupedProfilerData :=
  ⟨[(0x100, ⟨0x100, [(0x100, ⟨2, 1, 0, 0, [], []⟩)], [], 2, 1, 0, 0⟩)], [], 2⟩

/-- Strictly ascending keys, the representation invariant every embedded
`std::map` satisfies. -/
def keysSorted {α : Type} (l : List (Nat × α)) : Prop :=
  l.Pairwise (fun p q => p.1 < q.1)

instance keysSortedDecidable {α : Type} (l : List (Nat × α)) : Decidable (keysSorted l) := by
  unfold keysSorted
  infer_instance

/-- Well-formedness of the cost table used by lookup reasoning: the outer
map and every per-address `calls` map have sorted keys. -/
def costsSorted (costs : List (Nat × InstructionCost)) : Prop :=
  keysSorted costs ∧ ∀ p ∈ costs, keysSorted p.2.calls

end Profiler

namespace Profiler

/-- Lookup at a different key is unaffected by an update. -/
theorem alistLookup_update_ne {α : Type} (k k' : Nat) (hne : k' ≠ k)
    (f : α → α) (d : α) (l : List (Nat × α)) :
    alistLookup k' (alistUpdate k f d l) = alistLookup k' l := by
  induction l with
  | nil => simp [alistUpdate, alistLookup, hne]
  | cons x tl ih =>
    obtain ⟨k0, v⟩ := x
    by_cases h1 : k < k0
    · simp [alistUpdate, h1, alistLookup, hne]
    · by_cases h2 : k = k0
      · subst h2
        simp [alistUpdate, h1, alistLookup, hne]
      · by_cases h3 : k' = k0 <;> simp [alistUpdate, h1, h2, alistLookup, h3, ih]

/-- A key absent from a list looks up to `none`. -/
theorem alistLookup_eq_none_of_forall {α : Type} (k : Nat) (l : List (Nat × α))
    (h : ∀ p ∈ l, k ≠ p.1) : alistLookup k l = none := by
  induction l with
  | nil => rfl
  | cons x tl ih =>
    have hx := h x (by simp)
    simp only [alistLookup]
    rw [if_neg (by simpa using hx)]
    exact ih (fun p hp => h p (by simp [hp]))

/-- On a sorted map, lookup after an update at the same key returns the
mutated value, with the default substituted when the key was absent. -/
theorem alistLookup_update_self {α : Type} (k : Nat) (f : α → α) (d : α)
    (l : List (Nat × α)) (hs : keysSorted l) :
    alistLookup k (alistUpdate k f d l) = some (f ((alistLookup k l).getD d)) := by
  induction l with
  | nil => simp [alistUpdate, alistLookup]
  | cons x tl ih =>
    obtain ⟨k0, v⟩ := x
    have hs' := (List.pairwise_cons.mp hs).2
    have hlt := (List.pairwise_cons.mp hs).1
    by_cases h1 : k < k0
    · have hne : ¬ k = k0 := by omega
      have hnone : alistLookup k tl = none :=
        alistLookup_eq_none_of_forall k tl (fun p hp => by have := hlt p hp; omega)
      simp [alistUpdate, h1, alistLookup, hne, hnone]
    · by_cases h2 : k = k0
      · subst h2
        simp [alistUpdate, h1, alistLookup]
      · simp [alistUpdate, h1, h2, alistLookup, ih hs']

/-- Every entry of an updated map is an old entry or carries the updated
key, with the value then being the mutated default or a mutated old value. -/
theorem mem_alistUpdate {α : Type} (k : Nat) (f : α → α) (d : α)
    (l : List (Nat × α)) (p : Nat × α) :
    p ∈ alistUpdate k f d l →
      p ∈ l ∨ (p.1 = k ∧ (p.2 = f d ∨ ∃ v, (k, v) ∈ l ∧ p.2 = f v)) := by
  obtain ⟨pk, pv⟩ := p
  induction l with
  | nil =>
    intro hp
    simp only [alistUpdate, List.mem_singleton, Prod.mk.injEq] at hp
    exact Or.inr ⟨hp.1, Or.inl hp.2⟩
  | cons x tl ih =>
    obtain ⟨k0, v⟩ := x
    intro hp
    by_cases h1 : k < k0
    · rw [alistUpdate, if_pos h1] at hp
      rcases List.mem_cons.mp hp with h | h
      · simp only [Prod.mk.injEq] at h
        exact Or.inr ⟨h.1, Or.inl h.2⟩
      · exact Or.inl h
    · by_cases h2 : k = k0
      · subst h2
        rw [alistUpdate, if_neg h1, if_pos rfl] at hp
        rcases List.mem_cons.mp hp with h | h
        · simp only [Prod.mk.injEq] at h
          exact Or.inr ⟨h.1, Or.inr ⟨v, List.mem_cons_self _ _, h.2⟩⟩
        · exact Or.inl (List.mem_cons_of_mem _ h)
      · rw [alistUpdate, if_neg h1, if_neg h2] at hp
        rcases List.mem_cons.mp hp with h | h
        · exact Or.inl (List.mem_cons.mpr (Or.inl h))
        · rcases ih h with h' | ⟨hk, hv⟩
          · exact Or.inl (List.mem_cons_of_mem _ h')
          · refine Or.inr ⟨hk, ?_⟩
            rcases hv with h' | ⟨w, hw, hv⟩
            · exact Or.inl h'
            · exact Or.inr ⟨w, List.mem_cons_of_mem _ hw, hv⟩

/-- Updates preserve the sorted-keys invariant. -/
theorem keysSorted_alistUpdate {α : Type} (k : Nat) (f : α → α) (d : α)
    (l : List (Nat × α)) (hs : keysSorted l) : keysSorted (alistUpdate k f d l) := by
  induction l with
  | nil => simp [alistUpdate, keysSorted]
  | cons x tl ih =>
    obtain ⟨k0, v⟩ := x
    have hs' := (List.pairwise_cons.mp hs).2
    have hlt := (List.pairwise_cons.mp hs).1
    by_cases h1 : k < k0
    · simp only [alistUpdate, if_pos h1]
      refine List.pairwise_cons.mpr ⟨?_, hs⟩
      intro p hp
      rcases List.mem_cons.mp hp with h | h
      · simp [h, h1]
      · have := hlt p h
        simp
        omega
    · by_cases h2 : k = k0
      · subst h2
        simp only [alistUpdate, if_neg h1, if_pos rfl]
        exact List.pairwise_cons.mpr ⟨fun p hp => hlt p hp, hs'⟩
      · simp only [alistUpdate, if_neg h1, if_neg h2]
        refine List.pairwise_cons.mpr ⟨?_, ih hs'⟩
        intro p hp
        rcases mem_alistUpdate k f d tl p hp with h | ⟨hk, _⟩
        · exact hlt p h
        · simp [hk]
          omega

/-- The instruction-cost table is untouched by `ProcessReturn`. -/
theorem processReturn_instruction_costs (d : ProfilerData) (a : Nat) :
    (ProcessReturn d a).instruction_costs = d.instruction_costs := by
  cases hl : d.call_stack.getLast? <;> simp only [ProcessReturn, hl]
  split <;> rfl

/-- The running instruction counter is untouched by `ProcessReturn`. -/
theorem processReturn_total (d : ProfilerData) (a : Nat) :
    (ProcessReturn d a).total_instructions = d.total_instructions := by
  cases hl : d.call_stack.getLast? <;> simp only [ProcessReturn, hl]
  split <;> rfl

/-- `ProcessReturn` always sets the current pc to the returned-to address. -/
theorem processReturn_current_pc (d : ProfilerData) (a : Nat) :
    (ProcessReturn d a).current_pc = a := by
  cases hl : d.call_stack.getLast? <;> simp only [ProcessReturn, hl]
  split <;> rfl

/-- Effect of one map update on the table's self-cost sum: the update adds
`c` when the mutation adds `c` to `self_cost` and the default carries none. -/
theorem sumSelf_alistUpdate (k c : Nat) (f : InstructionCost → InstructionCost)
    (d0 : InstructionCost) (l : List (Nat × InstructionCost))
    (hf : ∀ v, (f v).self_cost = v.self_cost + c) (hd : d0.self_cost = 0) :
    sumSelf (alistUpdate k f d0 l) = sumSelf l + c := by
  induction l with
  | nil => simp [alistUpdate, sumSelf, hf, hd]
  | cons x tl ih =>
    obtain ⟨k0, v⟩ := x
    by_cases h1 : k < k0
    · simp only [alistUpdate, if_pos h1, sumSelf, List.map_cons, List.sum_cons]
      rw [hf, hd]
      omega
    · by_cases h2 : k = k0
      · subst h2
        simp only [alistUpdate, if_neg h1, eq_self_iff_true, if_true, sumSelf,
          List.map_cons, List.sum_cons]
        rw [hf]
        omega
      · simp only [alistUpdate, if_neg h1, if_neg h2, sumSelf, List.map_cons, List.sum_cons]
        have := ih
        simp only [sumSelf] at this
        omega

/-- Call-edge mutations do not change any `self_cost`. -/
theorem sumSelf_bumpCallAt (s t : Nat) (g : CallInfo → CallInfo)
    (cs : List (Nat × InstructionCost)) : sumSelf (bumpCallAt s t g cs) = sumSelf cs := by
  have h := sumSelf_alistUpdate s 0
    (fun ic => { ic with calls := alistUpdate t g defaultCallInfo ic.calls })
    defaultInstructionCost cs (fun v => rfl) rfl
  simpa [bumpCallAt] using h

/-- Jump-edge mutations do not change any `self_cost`. -/
theorem sumSelf_bumpJumpAt (s t : Nat) (g : CallInfo → CallInfo)
    (cs : List (Nat × InstructionCost)) : sumSelf (bumpJumpAt s t g cs) = sumSelf cs := by
  have h := sumSelf_alistUpdate s 0
    (fun ic => { ic with jumps := alistUpdate t g defaultCallInfo ic.jumps })
    defaultInstructionCost cs (fun v => rfl) rfl
  simpa [bumpJumpAt] using h

/-- Folding jump-edge mutations over a frame's active jumps preserves the
self-cost sum. -/
theorem sumSelf_jumpRefsFold (f : CallInfo → CallInfo) (refs : List (Nat × Nat))
    (cs : List (Nat × InstructionCost)) :
    sumSelf (refs.foldl (fun cs' p => bumpJumpAt p.1 p.2 f cs') cs) = sumSelf cs := by
  induction refs generalizing cs with
  | nil => rfl
  | cons p tl ih => rw [List.foldl_cons, ih, sumSelf_bumpJumpAt]

/-- The inclusive-cost propagation loop preserves the self-cost sum. -/
theorem sumSelf_bumpInclusive (f : CallInfo → CallInfo) (stack : List CallFrame)
    (cs : List (Nat × InstructionCost)) :
    sumSelf (bumpInclusive f stack cs) = sumSelf cs := by
  unfold bumpInclusive
  induction stack generalizing cs with
  | nil => rfl
  | cons fr tl ih => rw [List.foldl_cons, ih, sumSelf_jumpRefsFold, sumSelf_bumpCallAt]

/-- `ProcessInstructionExecute` adds exactly one to the self-cost sum. -/
theorem processInstructionExecute_sumSelf (d : ProfilerData) (a : Nat) :
    sumSelf (ProcessInstructionExecute d a).instruction_costs
      = sumSelf d.instruction_costs + 1 := by
  simp only [ProcessInstructionExecute]
  rw [sumSelf_bumpInclusive]
  split
  · rw [sumSelf_bumpCallAt, sumSelf_alistUpdate a 1 _ _ _ (fun v => rfl) rfl]
  · rw [sumSelf_alistUpdate a 1 _ _ _ (fun v => rfl) rfl]

/-- `ProcessInstructionExecute` adds exactly one to the running counter. -/
theorem processInstructionExecute_total (d : ProfilerData) (a : Nat) :
    (ProcessInstructionExecute d a).total_instructions = d.total_instructions + 1 := rfl

/-- `ProcessJump` preserves the self-cost sum. -/
theorem processJump_sumSelf (d : ProfilerData) (a : Nat) :
    sumSelf (ProcessJump d a).instruction_costs = sumSelf d.instruction_costs := by
  simp only [ProcessJump]
  rw [sumSelf_bumpJumpAt]

/-- `ProcessCall` preserves the self-cost sum. -/
theorem processCall_sumSelf (d : ProfilerData) (a r : Nat) :
    sumSelf (ProcessCall d a r).instruction_costs = sumSelf d.instruction_costs := by
  simp only [ProcessCall]
  rw [sumSelf_bumpCallAt]

/-- `ProcessDataRead` preserves the self-cost sum. -/
theorem processDataRead_sumSelf (d : ProfilerData) (a : Nat) :
    sumSelf (ProcessDataRead d a).instruction_costs = sumSelf d.instruction_costs := by
  simp only [ProcessDataRead]
  rw [sumSelf_bumpInclusive]
  split
  · rw [sumSelf_alistUpdate d.current_pc 0
      (fun ic => { ic with data_reads := ic.data_reads + 1 })
      defaultInstructionCost d.instruction_costs (fun v => rfl) rfl]
    rfl
  · rfl

/-- `ProcessDataWrite` preserves the self-cost sum. -/
theorem processDataWrite_sumSelf (d : ProfilerData) (a : Nat) :
    sumSelf (ProcessDataWrite d a).instruction_costs = sumSelf d.instruction_costs := by
  simp only [ProcessDataWrite]
  rw [sumSelf_bumpInclusive]
  split
  · rw [sumSelf_alistUpdate d.current_pc 0
      (fun ic => { ic with data_writes := ic.data_writes + 1 })
      defaultInstructionCost d.instruction_costs (fun v => rfl) rfl]
    rfl
  · rfl

/-- `ProcessInstrRead` preserves the self-cost sum. -/
theorem processInstrRead_sumSelf (d : ProfilerData) (a : Nat) :
    sumSelf (ProcessInstrRead d a).instruction_costs = sumSelf d.instruction_costs := by
  simp only [ProcessInstrRead]
  rw [sumSelf_bumpInclusive]
  split
  · rw [sumSelf_alistUpdate d.current_pc 0
      (fun ic => { ic with instr_fetches := ic.instr_fetches + 1 })
      defaultInstructionCost d.instruction_costs (fun v => rfl) rfl]
    rfl
  · rfl

/-- One dispatched event preserves the cost-conservation invariant. -/
theorem processEvent_conservation (d : ProfilerData) (e : Nat)
    (h : sumSelf d.instruction_costs = d.total_instructions) :
    sumSelf (ProcessEvent d e).instruction_costs
      = (ProcessEvent d e).total_instructions := by
  unfold ProcessEvent
  rcases GetEventType e with _ | _ | _ | _ | _ | _ | _ | n
  · rw [processInstructionExecute_sumSelf, processInstructionExecute_total, h]
  · rw [processJump_sumSelf]
    exact h
  · rw [processCall_sumSelf]
    exact h
  · rw [processReturn_instruction_costs, processReturn_total]
    exact h
  · rw [processDataRead_sumSelf]
    exact h
  · rw [processDataWrite_sumSelf]
    exact h
  · rw [processInstrRead_sumSelf]
    exact h
  · exact h

/-- C3: starting from a cleared `ProfilerData`, after processing any finite
sequence of events, the sum of `self_cost` over all entries of the
instruction-cost table equals the running `total_instructions` counter. -/
theorem selfCostSum_eq_totalInstructions (events : List Nat) :
    sumSelf (processEvents events ProfilerData.cleared).instruction_costs
      = (processEvents events ProfilerData.cleared).total_instructions := by
  have key : ∀ (es : List Nat) (d : ProfilerData),
      sumSelf d.instruction_costs = d.total_instructions →
      sumSelf (processEvents es d).instruction_costs
        = (processEvents es d).total_instructions := by
    intro es
    induction es with
    | nil => exact fun d h => h
    | cons e tl ih => exact fun d h => ih (ProcessEvent d e) (processEvent_conservation d e h)
  exact key events ProfilerData.cleared rfl

/-- C10: `ProcessReturn` modifies only the call stack and the current pc;
for every profiler state and every return address, the instruction-cost
table (hence all self and inclusive counters) and the total-instruction
counter are unchanged, across all three branches (normal return, longjmp
unwind, full stack reset). -/
theorem processReturn_frame_effect (d : ProfilerData) (a : Nat) :
    (ProcessReturn d a).instruction_costs = d.instruction_costs ∧
    (ProcessReturn d a).total_instructions = d.total_instructions ∧
    (ProcessReturn d a).current_pc = a :=
  ⟨processReturn_instruction_costs d a, processReturn_total d a,
   processReturn_current_pc d a⟩

/-- C2 (failing evaluation): the codec round trip fails as coded:
`MakeEvent` packs the type at bit 24 while `GetEventType` reads bits
28–31, so a JUMP event made by `MakeEvent` decodes as INSTR_EXECUTE; the
address component does round-trip. -/
theorem makeEvent_roundTrip_fails :
    GetEventType (MakeEvent EventType.JUMP 0x1234) = EventType.INSTR_EXECUTE.toUint ∧
    EventType.JUMP.toUint ≠ EventType.INSTR_EXECUTE.toUint ∧
    GetEventAddress (MakeEvent EventType.JUMP 0x1234) = 0x1234 := by
  decide

/-- C1 (failing evaluation): after a single `InstrExecute` at `0x1000`
with an empty call stack — recorded in the state as one executed
instruction and a synthetic root call edge `0 → 0x1000` of count 1 — the
grouped data's entry-point set is still empty, because
`ConvertToGroupedData` never populates `entry_points_`. -/
theorem groupedEntryPoints_empty_despite_root :
    (processEvents [RecordInstructionExecuteEvent 0x1000]
      ProfilerData.cleared).total_instructions = 1 ∧
    rootCallCount
      (processEvents [RecordInstructionExecuteEvent 0x1000] ProfilerData.cleared)
      0x1000 = 1 ∧
    (ConvertToGroupedData
      (processEvents [RecordInstructionExecuteEvent 0x1000]
        ProfilerData.cleared)).GetEntryPoints = [] := by
  decide

/-- C7: from any state with current pc `p`, `ProcessCall t r` pushes
exactly one frame whose expected return address is `p + 2 + r` and sets
the pc to `t`; a subsequent `ProcessReturn` to exactly `p + 2 + r` while
that frame is on top pops exactly one frame and leaves the rest of the
stack unchanged. -/
theorem processCall_push_and_matching_return_pop (d : ProfilerData) (t r : Nat)
    (h : d.current_pc + 2 + r < 2 ^ 32) :
    (ProcessCall d t r).call_stack
      = d.call_stack ++ [⟨t, d.current_pc, d.current_pc + 2 + r, []⟩] ∧
    (ProcessCall d t r).current_pc = t ∧
    (ProcessReturn (ProcessCall d t r) (d.current_pc + 2 + r)).call_stack
      = d.call_stack ∧
    (ProcessReturn (ProcessCall d t r) (d.current_pc + 2 + r)).current_pc
      = d.current_pc + 2 + r := by
  have hmod : (d.current_pc + 2 + r) % 2 ^ 32 = d.current_pc + 2 + r :=
    Nat.mod_eq_of_lt h
  have hstack : (ProcessCall d t r).call_stack
      = d.call_stack ++ [⟨t, d.current_pc, d.current_pc + 2 + r, []⟩] := by
    simp only [ProcessCall]
    rw [hmod]
  refine ⟨hstack, rfl, ?_, processReturn_current_pc _ _⟩
  have hlast : (ProcessCall d t r).call_stack.getLast?
      = some ⟨t, d.current_pc, d.current_pc + 2 + r, []⟩ := by
    rw [hstack]
    exact List.getLast?_concat _
  simp only [ProcessReturn, hlast]
  simp [hstack, List.dropLast_concat]

/-- Witness for C7 at the spec's concrete scenario: pc `0x2000`, call to
`0x3000` with return offset 0, then a return to `0x2002` pops exactly the
pushed frame. -/
theorem processCall_push_and_matching_return_pop_witness :
    sampleCallSiteState.current_pc + 2 + 0 < 2 ^ 32 ∧
    (ProcessReturn (ProcessCall sampleCallSiteState 0x3000 0)
      (sampleCallSiteState.current_pc + 2 + 0)).call_stack
      = sampleCallSiteState.call_stack :=
  ⟨by decide,
   (processCall_push_and_matching_return_pop sampleCallSiteState 0x3000 0
     (by decide)).2.2.1⟩

/-- Filling strictly below capacity appends events to the current buffer
without any switch. -/
theorem applyRecorders_below_capacity (cs : List RecorderCall)
    (F : List (List Nat)) (cur : List Nat) (k : Nat)
    (h : cur.length + cs.length < BUFFER_SIZE) :
    applyRecorders cs ⟨F, cur, k⟩ = ⟨F, cur ++ cs.map RecorderCall.encoded, k⟩ := by
  induction cs generalizing cur with
  | nil => simp [applyRecorders]
  | cons c tl ih =>
    have hne : ¬ cur.length + 1 = BUFFER_SIZE := by
      simp only [List.length_cons] at h
      omega
    have step : applyRecorder ⟨F, cur, k⟩ c = ⟨F, cur ++ [c.encoded], k⟩ := by
      simp [applyRecorder, recordEvent, hne]
    show applyRecorders tl (applyRecorder ⟨F, cur, k⟩ c) = _
    rw [step, ih (cur ++ [c.encoded])
      (by simp only [List.length_append, List.length_cons, List.length_nil]
          simp only [List.length_cons] at h
          omega)]
    simp

/-- Writing exactly `BUFFER_SIZE` events into a fresh buffer pushes the
full buffer and performs exactly one switch. -/
theorem applyRecorders_fill_exact (cs : List RecorderCall) (F : List (List Nat))
    (k : Nat) (h : cs.length = BUFFER_SIZE) :
    applyRecorders cs ⟨F, [], k⟩
      = ⟨F ++ [cs.map RecorderCall.encoded], [], k + 1⟩ := by
  have hnil : cs ≠ [] := by
    intro hnil
    rw [hnil] at h
    simp [BUFFER_SIZE] at h
  obtain ⟨l, c, rfl⟩ : ∃ l c, cs = l ++ [c] :=
    ⟨cs.dropLast, cs.getLast hnil, (List.dropLast_append_getLast hnil).symm⟩
  have hlen : l.length + 1 = BUFFER_SIZE := by
    simpa [List.length_append] using h
  rw [applyRecorders, List.foldl_append]
  rw [show List.foldl applyRecorder (⟨F, [], k⟩ : ClientState) l
        = applyRecorders l ⟨F, [], k⟩ from rfl]
  rw [applyRecorders_below_capacity l F [] k (by simp; omega)]
  have hfull : (List.map RecorderCall.encoded l ++ [c.encoded]).length = BUFFER_SIZE := by
    simp
    omega
  simp only [List.foldl_cons, List.foldl_nil, applyRecorder, recordEvent, List.nil_append]
  simp [hfull]

/-- C9: writing exactly `BUFFER_SIZE + 1 = 8193` events through the
recorder functions, starting from a freshly acquired empty buffer,
triggers exactly one buffer switch: the switch fires when the write
cursor reaches the 8192-event capacity, pushing the first 8192 events as
the filled buffer, and the 8193rd event is written as the sole event of
the newly acquired buffer. -/
theorem bufferSwitch_at_capacity (cs : List RecorderCall) (c : RecorderCall)
    (h : cs.length = BUFFER_SIZE) :
    applyRecorders (cs ++ [c]) ClientState.fresh
      = ⟨[cs.map RecorderCall.encoded], [c.encoded], 1⟩ := by
  rw [applyRecorders, List.foldl_append]
  rw [show List.foldl applyRecorder ClientState.fresh cs
        = applyRecorders cs ClientState.fresh from rfl]
  rw [show ClientState.fresh = (⟨[], [], 0⟩ : ClientState) from rfl]
  rw [applyRecorders_fill_exact cs [] 0 h]
  have hne : ¬ (([] : List Nat) ++ [c.encoded]).length = BUFFER_SIZE := by
    simp [BUFFER_SIZE]
  simp only [List.foldl_cons, List.foldl_nil, applyRecorder, recordEvent]
  simp [BUFFER_SIZE]

/-- Witness for C9: 8192 instruction-execute recordings followed by one
jump recording end with one switch and the jump event alone in the new
buffer. -/
theorem bufferSwitch_at_capacity_witness :
    (List.replicate BUFFER_SIZE (RecorderCall.instrExecute 0)).length = BUFFER_SIZE ∧
    applyRecorders
        (List.replicate BUFFER_SIZE (RecorderCall.instrExecute 0)
          ++ [RecorderCall.jump 5]) ClientState.fresh
      = ⟨[(List.replicate BUFFER_SIZE (RecorderCall.instrExecute 0)).map
            RecorderCall.encoded],
         [(RecorderCall.jump 5).encoded], 1⟩ :=
  ⟨List.length_replicate _ _,
   bufferSwitch_at_capacity _ _ (List.length_replicate _ _)⟩

/-- A successful lookup exhibits a member of the list. -/
theorem alistLookup_mem {α : Type} (k : Nat) (l : List (Nat × α)) (v : α)
    (h : alistLookup k l = some v) : (k, v) ∈ l := by
  induction l with
  | nil => simp [alistLookup] at h
  | cons x tl ih =>
    obtain ⟨k0, w⟩ := x
    by_cases hk : k = k0
    · subst hk
      simp only [alistLookup, eq_self_iff_true, if_true, Option.some.injEq] at h
      subst h
      exact List.mem_cons_self _ _
    · simp only [alistLookup, if_neg hk] at h
      exact List.mem_cons_of_mem _ (ih h)

/-- Normal form of the root-edge count as a lookup chain with defaults. -/
theorem rootCallCountTable_eq (cs : List (Nat × InstructionCost)) (b : Nat) :
    rootCallCountTable cs b
      = ((alistLookup b ((alistLookup 0 cs).getD defaultInstructionCost).calls).getD
          defaultCallInfo).call_count := by
  unfold rootCallCountTable
  rcases h0 : alistLookup 0 cs with _ | ic
  · simp [defaultInstructionCost, alistLookup, defaultCallInfo]
  · rcases hb : alistLookup b ic.calls with _ | ci
    · simp [hb, defaultCallInfo]
    · simp [hb]

/-- A `instruction_costs_[0].calls[b]` mutation adding `c` to `call_count`
adds exactly `c` to the root-edge count. -/
theorem rootCallCountTable_bumpCallAt (b c : Nat) (g : CallInfo → CallInfo)
    (cs : List (Nat × InstructionCost))
    (hg : ∀ ci, (g ci).call_count = ci.call_count + c)
    (hs : keysSorted cs) (hc : ∀ p ∈ cs, keysSorted p.2.calls) :
    rootCallCountTable (bumpCallAt 0 b g cs) b = rootCallCountTable cs b + c := by
  rw [rootCallCountTable_eq, rootCallCountTable_eq]
  have h0 : alistLookup 0 (bumpCallAt 0 b g cs)
      = some ((fun ic => { ic with calls := alistUpdate b g defaultCallInfo ic.calls })
          ((alistLookup 0 cs).getD defaultInstructionCost)) :=
    alistLookup_update_self 0 _ _ cs hs
  rw [h0]
  simp only [Option.getD_some]
  have hsc : keysSorted ((alistLookup 0 cs).getD defaultInstructionCost).calls := by
    cases hl : alistLookup 0 cs with
    | none => simp [defaultInstructionCost, keysSorted]
    | some ic => simpa using hc (0, ic) (alistLookup_mem 0 cs ic hl)
  rw [alistLookup_update_self b g defaultCallInfo _ hsc]
  simp [hg]

/-- Mutations that keep the `calls` map intact keep the root-edge count
intact, including when they insert a fresh default entry. -/
theorem rootCallCountTable_update_preserving (x b : Nat)
    (f : InstructionCost → InstructionCost) (cs : List (Nat × InstructionCost))
    (hs : keysSorted cs) (hf : ∀ v, (f v).calls = v.calls) :
    rootCallCountTable (alistUpdate x f defaultInstructionCost cs) b
      = rootCallCountTable cs b := by
  rw [rootCallCountTable_eq, rootCallCountTable_eq]
  by_cases hx : (0 : Nat) = x
  · subst hx
    rw [alistLookup_update_self 0 f _ cs hs]
    simp only [Option.getD_some, hf]
  · rw [alistLookup_update_ne x 0 hx f defaultInstructionCost cs]

/-- Sorted keys survive any update keeping values' `calls` maps sorted. -/
theorem callsSorted_alistUpdate (x : Nat) (f : InstructionCost → InstructionCost)
    (cs : List (Nat × InstructionCost))
    (hc : ∀ p ∈ cs, keysSorted p.2.calls)
    (hf : ∀ v, keysSorted v.calls → keysSorted (f v).calls)
    (hd : keysSorted (f defaultInstructionCost).calls) :
    ∀ p ∈ alistUpdate x f defaultInstructionCost cs, keysSorted p.2.calls := by
  intro p hp
  rcases mem_alistUpdate x f defaultInstructionCost cs p hp with h | ⟨_, hv⟩
  · exact hc p h
  · rcases hv with h | ⟨v, hvmem, h⟩
    · rw [h]
      exact hd
    · rw [h]
      exact hf v (hc (x, v) hvmem)

/-- C6: a return to an address that matches no frame's expected return
address, while the stack is non-empty, pops the entire call stack and
sets the current pc to that address; a subsequent `InstrExecute` at any
address `b` synthesizes a fresh top-level root frame and increments the
call edge from the reserved root address 0 to `b`. -/
theorem desyncReturn_resets_then_resynthesizes_root (d : ProfilerData) (a b : Nat)
    (hne : d.call_stack ≠ [])
    (hmiss : ∀ fr ∈ d.call_stack, fr.return_address ≠ a)
    (hs : keysSorted d.instruction_costs)
    (hc : ∀ p ∈ d.instruction_costs, keysSorted p.2.calls) :
    (ProcessReturn d a).call_stack = [] ∧
    (ProcessReturn d a).current_pc = a ∧
    (ProcessInstructionExecute (ProcessReturn d a) b).call_stack = [⟨b, 0, 0, []⟩] ∧
    rootCallCount (ProcessInstructionExecute (ProcessReturn d a) b) b
      = rootCallCount (ProcessReturn d a) b + 1 := by
  have hclear : (ProcessReturn d a).call_stack = [] := by
    rcases hl : d.call_stack.getLast? with _ | top
    · exact absurd (List.getLast?_eq_none_iff.mp hl) hne
    · have htop : top ∈ d.call_stack := List.mem_of_mem_getLast? (by simp [hl])
      have hret : ¬ top.return_address = a := hmiss top htop
      have hfind : d.call_stack.reverse.findIdx? (fun fr => fr.return_address == a)
          = none := by
        apply List.findIdx?_eq_none_iff.mpr
        intro x hx
        simpa using hmiss x (List.mem_reverse.mp hx)
      simp only [ProcessReturn, hl, if_neg hret, hfind]
  refine ⟨hclear, processReturn_current_pc d a, ?_, ?_⟩
  · simp only [ProcessInstructionExecute, hclear]
    simp
  · have hcosts : (ProcessReturn d a).instruction_costs = d.instruction_costs :=
      processReturn_instruction_costs d a
    have hfinal : (ProcessInstructionExecute (ProcessReturn d a) b).instruction_costs
        = bumpCallAt 0 b incrInclInstr
            (bumpCallAt 0 b incrCount
              (alistUpdate b (fun ic => { ic with self_cost := ic.self_cost + 1 })
                defaultInstructionCost d.instruction_costs)) := by
      simp only [ProcessInstructionExecute, hclear, hcosts]
      simp [bumpInclusive]
    have hs1 : keysSorted (alistUpdate b
        (fun ic => { ic with self_cost := ic.self_cost + 1 })
        defaultInstructionCost d.instruction_costs) :=
      keysSorted_alistUpdate _ _ _ _ hs
    have hc1 : ∀ p ∈ alistUpdate b
        (fun ic => { ic with self_cost := ic.self_cost + 1 })
        defaultInstructionCost d.instruction_costs, keysSorted p.2.calls :=
      callsSorted_alistUpdate _ _ _ hc (fun v hv => hv)
        (by simp [defaultInstructionCost, keysSorted])
    have hs2 : keysSorted (bumpCallAt 0 b incrCount
        (alistUpdate b (fun ic => { ic with self_cost := ic.self_cost + 1 })
          defaultInstructionCost d.instruction_costs)) :=
      keysSorted_alistUpdate _ _ _ _ hs1
    have hc2 : ∀ p ∈ bumpCallAt 0 b incrCount
        (alistUpdate b (fun ic => { ic with self_cost := ic.self_cost + 1 })
          defaultInstructionCost d.instruction_costs), keysSorted p.2.calls :=
      callsSorted_alistUpdate _ _ _ hc1
        (fun v hv => keysSorted_alistUpdate _ _ _ _ hv)
        (by simp [defaultInstructionCost, alistUpdate, keysSorted])
    simp only [rootCallCount, hfinal, hcosts]
    rw [rootCallCountTable_bumpCallAt b 0 incrInclInstr _ (fun ci => rfl) hs2 hc2]
    rw [rootCallCountTable_bumpCallAt b 1 incrCount _ (fun ci => rfl) hs1 hc1]
    rw [rootCallCountTable_update_preserving b b
      (fun ic => { ic with self_cost := ic.self_cost + 1 }) _ hs (fun v => rfl)]

/-- Witness for C6 at the spec's scenario: a state with a two-frame stack
(expected returns 0 and `0x1002`), a return to the unmatched `0x9999`,
then an `InstrExecute` at `0x3000`. -/
theorem desyncReturn_resets_then_resynthesizes_root_witness :
    (ProcessReturn sampleDesyncState 0x9999).call_stack = [] ∧
    (ProcessReturn sampleDesyncState 0x9999).current_pc = 0x9999 ∧
    (ProcessInstructionExecute (ProcessReturn sampleDesyncState 0x9999)
      0x3000).call_stack = [⟨0x3000, 0, 0, []⟩] ∧
    rootCallCount
        (ProcessInstructionExecute (ProcessReturn sampleDesyncState 0x9999) 0x3000)
        0x3000
      = rootCallCount (ProcessReturn sampleDesyncState 0x9999) 0x3000 + 1 :=
  desyncReturn_resets_then_resynthesizes_root sampleDesyncState 0x9999 0x3000
    (by decide) (by decide) (by decide) (by decide)

/-- The header's totals fold computes the four componentwise sums of the
per-function self totals. -/
theorem summaryTotals_eq (g : GroupedProfilerData) :
    summaryTotals g
      = ((g.functions.map (fun fe => fe.2.total_self_instructions)).sum,
         (g.functions.map (fun fe => fe.2.total_self_instr_fetches)).sum,
         (g.functions.map (fun fe => fe.2.total_self_data_reads)).sum,
         (g.functions.map (fun fe => fe.2.total_self_data_writes)).sum) := by
  have key : ∀ (L : List (Nat × GroupedFunction)) (t : Nat × Nat × Nat × Nat),
      L.foldl (fun t fe =>
        (t.1 + fe.2.total_self_instructions,
         t.2.1 + fe.2.total_self_instr_fetches,
         t.2.2.1 + fe.2.total_self_data_reads,
         t.2.2.2 + fe.2.total_self_data_writes)) t
      = (t.1 + (L.map (fun fe => fe.2.total_self_instructions)).sum,
         t.2.1 + (L.map (fun fe => fe.2.total_self_instr_fetches)).sum,
         t.2.2.1 + (L.map (fun fe => fe.2.total_self_data_reads)).sum,
         t.2.2.2 + (L.map (fun fe => fe.2.total_self_data_writes)).sum) := by
    intro L
    induction L with
    | nil => intro t; simp
    | cons fe tl ih =>
      intro t
      simp only [List.foldl_cons, List.map_cons, List.sum_cons]
      rw [ih]
      simp [Nat.add_assoc]
  simpa [summaryTotals] using key g.functions (0, 0, 0, 0)

/-- The call-line emitter adds no instruction cost lines. -/
theorem instrCost_mem_emitCallsAt (pos : AddrField) (fields : List Nat)
    (cs : List FunctionCall) (st : Nat × List CgLine) :
    CgLine.instrCost pos fields ∈ (emitCallsAt st cs).2
      ↔ CgLine.instrCost pos fields ∈ st.2 := by
  unfold emitCallsAt
  induction cs generalizing st with
  | nil => exact Iff.rfl
  | cons c tl ih =>
    rw [List.foldl_cons, ih]
    simp

/-- Every instruction cost line produced by the per-instruction loop either
was present already or carries precisely the cycles/instructions/reads/
writes fields computed from some listed instruction. -/
theorem instrCost_mem_emitInstrsFold (pos : AddrField) (fields : List Nat)
    (cba : List (Nat × List FunctionCall)) (L : List (Nat × InstructionCost))
    (st : Nat × List CgLine)
    (h : CgLine.instrCost pos fields ∈ (L.foldl (emitInstr cba) st).2) :
    CgLine.instrCost pos fields ∈ st.2 ∨
      ∃ ic ∈ L, fields
        = [ic.2.self_cost + ic.2.instr_fetches * 3 + ic.2.data_reads * 3
            + ic.2.data_writes * 3,
           ic.2.self_cost, ic.2.data_reads, ic.2.data_writes] := by
  induction L generalizing st with
  | nil => exact Or.inl h
  | cons instr tl ih =>
    rw [List.foldl_cons] at h
    rcases ih _ h with h' | ⟨ic, hic, hf⟩
    · rcases hlk : alistLookup instr.1 cba with _ | cs
      · simp only [emitInstr, hlk] at h'
        rcases List.mem_append.mp h' with h'' | h''
        · exact Or.inl h''
        · simp only [List.mem_singleton, CgLine.instrCost.injEq] at h''
          exact Or.inr ⟨instr, List.mem_cons_self _ _, h''.2⟩
      · simp only [emitInstr, hlk] at h'
        rw [instrCost_mem_emitCallsAt] at h'
        rcases List.mem_append.mp h' with h'' | h''
        · exact Or.inl h''
        · simp only [List.mem_singleton, CgLine.instrCost.injEq] at h''
          exact Or.inr ⟨instr, List.mem_cons_self _ _, h''.2⟩
    · exact Or.inr ⟨ic, List.mem_cons_of_mem _ hic, hf⟩

/-- Every instruction cost line of the Callgrind body belongs to some
function's listed instruction and carries the computed fields. -/
theorem instrCost_mem_writeBody (g : GroupedProfilerData) (pos : AddrField)
    (fields : List Nat)
    (h : CgLine.instrCost pos fields ∈ WriteBody g) :
    ∃ fe ∈ g.functions, ∃ ic ∈ fe.2.instructions, fields
      = [ic.2.self_cost + ic.2.instr_fetches * 3 + ic.2.data_reads * 3
          + ic.2.data_writes * 3,
         ic.2.self_cost, ic.2.data_reads, ic.2.data_writes] := by
  unfold WriteBody at h
  by_cases hemp : g.functions.isEmpty
  · rw [if_pos hemp] at h
    exact absurd h (List.not_mem_nil _)
  · rw [if_neg hemp] at h
    rcases List.mem_flatten.mp h with ⟨l, hl, hml⟩
    rcases List.mem_map.mp hl with ⟨fe, hfe, rfl⟩
    unfold emitFunction at hml
    rcases List.mem_cons.mp hml with h'' | h''
    · exact absurd h'' (by simp)
    · rcases List.mem_append.mp h'' with h3 | h3
      · rcases instrCost_mem_emitInstrsFold pos fields _ _ _ h3 with h4 | ⟨ic, hic, hf⟩
        · exact absurd h4 (List.not_mem_nil _)
        · exact ⟨fe, hfe, ic, hic, hf⟩
      · exact absurd h3 (by simp)

/-- C8: every instruction cost line written by the Callgrind serializer has
the field order cycles, instructions, dataReads, dataWrites, with cycles
equal to self instructions plus three times the sum of instruction
fetches, data reads and data writes of that instruction; the summary
line's cycles value is computed by the same formula from the per-function
self totals. -/
theorem callgrind_costLine_fields (g : GroupedProfilerData) (pos : AddrField)
    (fields : List Nat) :
    (CgLine.instrCost pos fields ∈ WriteBody g →
      ∃ fe ∈ g.functions, ∃ ic ∈ fe.2.instructions, fields
        = [ic.2.self_cost
            + 3 * (ic.2.instr_fetches + ic.2.data_reads + ic.2.data_writes),
           ic.2.self_cost, ic.2.data_reads, ic.2.data_writes]) ∧
    summaryLine g
      = [(g.functions.map (fun fe => fe.2.total_self_instructions)).sum
          + 3 * ((g.functions.map (fun fe => fe.2.total_self_instr_fetches)).sum
            + (g.functions.map (fun fe => fe.2.total_self_data_reads)).sum
            + (g.functions.map (fun fe => fe.2.total_self_data_writes)).sum),
         (g.functions.map (fun fe => fe.2.total_self_instructions)).sum,
         (g.functions.map (fun fe => fe.2.total_self_data_reads)).sum,
         (g.functions.map (fun fe => fe.2.total_self_data_writes)).sum] := by
  constructor
  · intro h
    rcases instrCost_mem_writeBody g pos fields h with ⟨fe, hfe, ic, hic, hf⟩
    refine ⟨fe, hfe, ic, hic, ?_⟩
    rw [hf]
    have : ic.2.self_cost + ic.2.instr_fetches * 3 + ic.2.data_reads * 3
        + ic.2.data_writes * 3
        = ic.2.self_cost
          + 3 * (ic.2.instr_fetches + ic.2.data_reads + ic.2.data_writes) := by
      ring
    rw [this]
  · rw [summaryLine, summaryTotals_eq]
    have : (g.functions.map (fun fe => fe.2.total_self_instructions)).sum
        + (g.functions.map (fun fe => fe.2.total_self_instr_fetches)).sum * 3
        + (g.functions.map (fun fe => fe.2.total_self_data_reads)).sum * 3
        + (g.functions.map (fun fe => fe.2.total_self_data_writes)).sum * 3
        = (g.functions.map (fun fe => fe.2.total_self_instructions)).sum
          + 3 * ((g.functions.map (fun fe => fe.2.total_self_instr_fetches)).sum
            + (g.functions.map (fun fe => fe.2.total_self_data_reads)).sum
            + (g.functions.map (fun fe => fe.2.total_self_data_writes)).sum) := by
      ring
    rw [this]

/-- Witness for C8 on a one-function, one-instruction grouped data set:
the emitted cost line `[5, 2, 0, 0]` (cycles 5 = 2 + 3·1) is accounted
for, and the summary line is produced by the same formula. -/
theorem callgrind_costLine_fields_witness :
    (∃ fe ∈ sampleGrouped.functions, ∃ ic ∈ fe.2.instructions,
      ([5, 2, 0, 0] : List Nat)
        = [ic.2.self_cost
            + 3 * (ic.2.instr_fetches + ic.2.data_reads + ic.2.data_writes),
           ic.2.self_cost, ic.2.data_reads, ic.2.data_writes]) ∧
    summaryLine sampleGrouped = [5, 2, 0, 0] :=
  ⟨(callgrind_costLine_fields sampleGrouped (.abs 0x100) [5, 2, 0, 0]).1 (by decide),
   (callgrind_costLine_fields sampleGrouped (.abs 0x100) [5, 2, 0, 0]).2⟩

/-- The inserted key is a member of the ordered-set insertion. -/
theorem mem_sortedInsert_self (k : Nat) (l : List Nat) : k ∈ sortedInsert k l := by
  induction l with
  | nil => simp [sortedInsert]
  | cons x tl ih =>
    by_cases h1 : k < x
    · simp [sortedInsert, h1]
    · by_cases h2 : k = x
      · simp [sortedInsert, h1, h2]
      · simp only [sortedInsert, if_neg h1, if_neg h2]
        exact List.mem_cons_of_mem _ ih

/-- Ordered-set insertion keeps the existing members. -/
theorem mem_sortedInsert_of_mem (k x : Nat) (l : List Nat) (h : x ∈ l) :
    x ∈ sortedInsert k l := by
  induction l with
  | nil => simp at h
  | cons y tl ih =>
    by_cases h1 : k < y
    · simp only [sortedInsert, if_pos h1]
      exact List.mem_cons_of_mem _ h
    · by_cases h2 : k = y
      · simpa [sortedInsert, h1, h2] using h
      · simp only [sortedInsert, if_neg h1, if_neg h2]
        rcases List.mem_cons.mp h with h3 | h3
        · exact List.mem_cons.mpr (Or.inl h3)
        · exact List.mem_cons_of_mem _ (ih h3)

/-- A member strictly inside the window makes the window test true. -/
theorem entryBetween_true (entries : List Nat) (lo hi e : Nat)
    (he : e ∈ entries) (hlo : lo < e) (hhi : e < hi) :
    entryBetween entries lo hi = true := by
  unfold entryBetween
  rw [List.any_eq_true]
  exact ⟨e, he, by simp [hlo, hhi]⟩

/-- The inner jump pass never removes entries. -/
theorem jumpPassInner_mono (source : Nat) (jl : List (Nat × CallInfo))
    (st : List Nat × List (Nat × Nat)) (x : Nat) (hx : x ∈ st.1) :
    x ∈ (jumpPassInner source st jl).1 := by
  unfold jumpPassInner
  induction jl generalizing st with
  | nil => exact hx
  | cons j tl ih =>
    rw [List.foldl_cons]
    apply ih
    dsimp only
    split
    · exact mem_sortedInsert_of_mem _ _ _ hx
    · exact hx

/-- The outer jump pass never removes entries. -/
theorem jumpPassFold_mono (l : List (Nat × InstructionCost))
    (st : List Nat × List (Nat × Nat)) (x : Nat) (hx : x ∈ st.1) :
    x ∈ (l.foldl (fun st e => jumpPassInner e.1 st e.2.jumps) st).1 := by
  induction l generalizing st with
  | nil => exact hx
  | cons e tl ih =>
    rw [List.foldl_cons]
    exact ih _ (jumpPassInner_mono _ _ _ _ hx)

/-- If a seed set contained in the current entries crosses the window of
one of the listed jumps, the inner pass promotes that jump's target. -/
theorem jumpPassInner_promotes (source : Nat) (S : List Nat)
    (jl : List (Nat × CallInfo)) (st : List Nat × List (Nat × Nat))
    (t : Nat) (ji : CallInfo) (hj : (t, ji) ∈ jl)
    (hsub : ∀ e ∈ S, e ∈ st.1)
    (hseed : ∃ e ∈ S, min source t < e ∧ e < max source t) :
    t ∈ (jumpPassInner source st jl).1 := by
  induction jl generalizing st with
  | nil => simp at hj
  | cons j tl ih =>
    have hstep : jumpPassInner source st (j :: tl)
        = jumpPassInner source
            (if entryBetween st.1 (min source j.1) (max source j.1)
             then (sortedInsert j.1 st.1, pairInsert (source, j.1) st.2)
             else st) tl := rfl
    rcases List.mem_cons.mp hj with hj1 | hj1
    · obtain rfl : j = (t, ji) := hj1.symm
      obtain ⟨e, he, helo, hehi⟩ := hseed
      have hbet : entryBetween st.1 (min source (t, ji).1) (max source (t, ji).1)
          = true := entryBetween_true _ _ _ e (hsub e he) helo hehi
      rw [hstep, if_pos hbet]
      exact jumpPassInner_mono source tl _ t (mem_sortedInsert_self t st.1)
    · rw [hstep]
      split
      · exact ih _ hj1 (fun e he => mem_sortedInsert_of_mem _ _ _ (hsub e he))
      · exact ih _ hj1 hsub

/-- If a seed crosses the window of a jump recorded anywhere in the cost
table, the full single pass promotes the jump's target, provided all
seeds are already in the running entry set. -/
theorem jumpPassFold_promotes (S : List Nat) (l : List (Nat × InstructionCost))
    (st : List Nat × List (Nat × Nat)) (s t : Nat) (ic : InstructionCost)
    (ji : CallInfo) (hmem : (s, ic) ∈ l) (hj : (t, ji) ∈ ic.jumps)
    (hsub : ∀ e ∈ S, e ∈ st.1)
    (hseed : ∃ e ∈ S, min s t < e ∧ e < max s t) :
    t ∈ (l.foldl (fun st e => jumpPassInner e.1 st e.2.jumps) st).1 := by
  induction l generalizing st with
  | nil => simp at hmem
  | cons e0 tl ih =>
    rcases List.mem_cons.mp hmem with h1 | h1
    · rw [List.foldl_cons]
      apply jumpPassFold_mono
      rw [← h1]
      exact jumpPassInner_promotes s S ic.jumps st t ji hj hsub hseed
    · rw [List.foldl_cons]
      exact ih _ h1 (fun e he => jumpPassInner_mono _ _ _ _ (hsub e he))

/-- C5 (counterexample to the claim as stated): the single ordered pass is
not the least fixed point of the promotion rule.  In the state built from
the stream InstrExecute 0x50, Call 0x500, InstrExecute 0x100, Jump 0x200,
InstrExecute 0x600, Jump 0x150, the later jump 0x600 → 0x150 promotes
0x150 (crossing the call seed 0x500), but the earlier-processed jump
0x100 → 0x200 is left unpromoted even though the entry 0x150 lies
strictly between 0x100 and 0x200. -/
theorem singlePass_not_fixed_point :
    jumpRecorded sampleJumpState.instruction_costs 0x100 0x200 = true ∧
    0x150 ∈ functionEntries sampleJumpState.instruction_costs ∧
    0x100 < 0x150 ∧ 0x150 < 0x200 ∧
    0x200 ∉ functionEntries sampleJumpState.instruction_costs := by
  decide

/-- C5 (amended): after the grouper's single ordered pass there is no
recorded jump from source `s` to target `t` such that some call-target
seed entry lies strictly between `min s t` and `max s t` while `t` is not
itself an entry point.  Equivalence with the full fixed point fails only
for entries discovered during the pass itself: a target promoted later
does not retrigger earlier jumps. -/
theorem singlePass_promotes_over_seeds (data : ProfilerData) (s t : Nat)
    (hrec : jumpRecorded data.instruction_costs s t = true)
    (hseed : ∃ e ∈ collectSeeds data.instruction_costs,
      min s t < e ∧ e < max s t) :
    t ∈ functionEntries data.instruction_costs := by
  unfold jumpRecorded at hrec
  rcases h0 : alistLookup s data.instruction_costs with _ | ic
  · rw [h0] at hrec
    simp at hrec
  · rw [h0] at hrec
    obtain ⟨ji, hji⟩ := Option.isSome_iff_exists.mp hrec
    unfold functionEntries jumpPass
    exact jumpPassFold_promotes (collectSeeds data.instruction_costs)
      data.instruction_costs (collectSeeds data.instruction_costs, []) s t ic ji
      (alistLookup_mem s _ ic h0) (alistLookup_mem t _ ji hji)
      (fun e he => he) hseed

/-- Witness for the amended C5: the recorded jump 0x600 → 0x150 crosses
the call seed 0x500, and its target 0x150 is indeed promoted. -/
theorem singlePass_promotes_over_seeds_witness :
    0x150 ∈ functionEntries sampleJumpState.instruction_costs :=
  singlePass_promotes_over_seeds sampleJumpState 0x600 0x150 (by decide) (by decide)

/-- A defined list maximum is a member of its list. -/
theorem listMax_mem (l : List Nat) (m : Nat) (h : listMax l = some m) : m ∈ l := by
  induction l generalizing m with
  | nil => simp [listMax] at h
  | cons x tl ih =>
    rw [listMax] at h
    rcases htl : listMax tl with _ | m0 <;> rw [htl] at h <;>
      simp only [Option.some.injEq] at h
    · exact h ▸ List.mem_cons_self _ _
    · subst h
      rcases Nat.le_total x m0 with hle | hle
      · have hmax : Nat.max x m0 = m0 := Nat.max_eq_right hle
        rw [hmax]
        exact List.mem_cons_of_mem _ (ih m0 htl)
      · have hmax : Nat.max x m0 = x := Nat.max_eq_left hle
        rw [hmax]
        exact List.mem_cons_self _ _

/-- An undefined list maximum means the list is empty. -/
theorem listMax_none (l : List Nat) (h : listMax l = none) : l = [] := by
  cases l with
  | nil => rfl
  | cons x tl =>
    rw [listMax] at h
    rcases htl : listMax tl with _ | m0 <;> rw [htl] at h <;> simp at h

/-- The list maximum bounds every member. -/
theorem listMax_ge (l : List Nat) (m : Nat) (h : listMax l = some m) :
    ∀ x ∈ l, x ≤ m := by
  induction l generalizing m with
  | nil => simp [listMax] at h
  | cons x tl ih =>
    rw [listMax] at h
    rcases htl : listMax tl with _ | m0 <;> rw [htl] at h <;>
      simp only [Option.some.injEq] at h
    · intro y hy
      rcases List.mem_cons.mp hy with h1 | h1
      · subst h1
        omega
      · rw [listMax_none tl htl] at h1
        simp at h1
    · subst h
      intro y hy
      rcases List.mem_cons.mp hy with h1 | h1
      · subst h1
        exact Nat.le_max_left _ _
      · exact Nat.le_trans (ih m0 htl y h1) (Nat.le_max_right _ _)

/-- The owner computed by `findOwner` is the largest entry `≤ address`, or
the address itself when no entry lies at or below it. -/
theorem findOwner_isOwner (entries : List Nat) (a : Nat) :
    IsOwner entries a (findOwner entries a) := by
  unfold findOwner
  rcases h : listMax (entries.filter (fun e => e ≤ a)) with _ | m
  · right
    refine ⟨by simp, ?_⟩
    intro e he hle
    have hmem : e ∈ entries.filter (fun e => e ≤ a) :=
      List.mem_filter.mpr ⟨he, by simpa⟩
    rw [listMax_none _ h] at hmem
    simp at hmem
  · left
    simp only [Option.getD_some]
    have hm := listMax_mem _ _ h
    have hf := List.mem_filter.mp hm
    refine ⟨hf.1, by simpa using hf.2, ?_⟩
    intro e he hle
    exact listMax_ge _ _ h e (List.mem_filter.mpr ⟨he, by simpa⟩)

/-- Appending into a bucket permutes the stored values by one cons. -/
theorem mvalues_mlistAppend {α : Type} (k : Nat) (v : α) (m : List (Nat × List α)) :
    List.Perm (mvalues (mlistAppend k v m)) (v :: mvalues m) := by
  induction m with
  | nil =>
    simp only [mvalues, mlistAppend, alistUpdate, List.map_cons, List.map_nil,
      List.flatten_cons, List.flatten_nil, List.nil_append, List.append_nil]
    exact List.Perm.refl _
  | cons x tl ih =>
    obtain ⟨k0, l0⟩ := x
    by_cases h1 : k < k0
    · simp only [mvalues, mlistAppend, alistUpdate, if_pos h1, List.map_cons,
        List.flatten_cons, List.nil_append]
      exact List.Perm.refl _
    · by_cases h2 : k = k0
      · subst h2
        simp only [mvalues, mlistAppend, alistUpdate, if_neg h1, eq_self_iff_true,
          if_true, List.map_cons, List.flatten_cons]
        rw [List.append_assoc]
        exact List.perm_middle
      · simp only [mvalues, mlistAppend, alistUpdate, if_neg h1, if_neg h2,
          List.map_cons, List.flatten_cons]
        have hih : List.Perm
            ((List.map Prod.snd (alistUpdate k (fun l => l ++ [v]) [] tl)).flatten)
            (v :: (List.map Prod.snd tl).flatten) := by
          simpa [mvalues, mlistAppend] using ih
        exact (List.Perm.append_left l0 hih).trans List.perm_middle

/-- The grouping fold stores exactly the processed entries (as a
permutation), whatever the initial buckets held. -/
theorem mvalues_groupFold (entries : List Nat) (l : List (Nat × InstructionCost)) :
    ∀ m0 : List (Nat × List (Nat × InstructionCost)), List.Perm
      (mvalues (l.foldl (fun m e => mlistAppend (findOwner entries e.1) e m) m0))
      (l ++ mvalues m0) := by
  induction l with
  | nil =>
    intro m0
    simp only [List.foldl_nil, List.nil_append]
    exact List.Perm.refl (mvalues m0)
  | cons e tl ih =>
    intro m0
    rw [List.foldl_cons]
    have h1 := ih (mlistAppend (findOwner entries e.1) e m0)
    have h2 : List.Perm (tl ++ mvalues (mlistAppend (findOwner entries e.1) e m0))
        (tl ++ (e :: mvalues m0)) :=
      List.Perm.append_left tl (mvalues_mlistAppend _ _ _)
    have h3 : List.Perm (tl ++ (e :: mvalues m0)) (e :: (tl ++ mvalues m0)) :=
      List.perm_middle
    exact h1.trans (h2.trans h3)

/-- The values bucketed by `groupByOwner` are a permutation of the cost
table's entries. -/
theorem mvalues_groupByOwner (costs : List (Nat × InstructionCost))
    (entries : List Nat) :
    List.Perm (mvalues (groupByOwner costs entries)) costs := by
  have h := mvalues_groupFold entries costs []
  simpa [groupByOwner, mvalues] using h

/-- Bucket insertion preserves a per-bucket predicate when the inserted
value satisfies it at the insertion key. -/
theorem mlistAppend_bucket {α : Type} (P : α → Nat → Prop) (k : Nat) (v : α)
    (m : List (Nat × List α))
    (hm : ∀ p ∈ m, ∀ e ∈ p.2, P e p.1) (hv : P v k) :
    ∀ p ∈ mlistAppend k v m, ∀ e ∈ p.2, P e p.1 := by
  intro p hp e he
  rcases mem_alistUpdate k _ [] m p hp with h | ⟨hk, hval⟩
  · exact hm p h e he
  · rcases hval with h | ⟨l0, hl0, h⟩
    · rw [h] at he
      simp only [List.nil_append, List.mem_singleton] at he
      rw [hk, he]
      exact hv
    · rw [h] at he
      rcases List.mem_append.mp he with h2 | h2
      · rw [hk]
        exact hm (k, l0) hl0 e h2
      · simp only [List.mem_singleton] at h2
        rw [hk, h2]
        exact hv

/-- Every value found in a bucket of the grouping fold is owned by that
bucket's key. -/
theorem groupByOwner_bucket (entries : List Nat) (l : List (Nat × InstructionCost)) :
    ∀ m0, (∀ p ∈ m0, ∀ e ∈ p.2, findOwner entries e.1 = p.1) →
    ∀ p ∈ l.foldl (fun m e => mlistAppend (findOwner entries e.1) e m) m0,
      ∀ e ∈ p.2, findOwner entries e.1 = p.1 := by
  induction l with
  | nil => exact fun m0 hm => hm
  | cons e tl ih =>
    intro m0 hm
    rw [List.foldl_cons]
    exact ih _ (mlistAppend_bucket
      (fun (e : Nat × InstructionCost) (k : Nat) => findOwner entries e.1 = k)
      _ _ _ hm rfl)

/-- The call-edge emission loop does not touch the instruction list. -/
theorem emitFunctionCalls_instructions (i2f : List (Nat × Nat)) (addr : Nat)
    (f : GroupedFunction) (cl : List (Nat × CallInfo)) :
    (emitFunctionCalls i2f addr f cl).instructions = f.instructions := by
  unfold emitFunctionCalls
  induction cl generalizing f with
  | nil => rfl
  | cons ce tl ih =>
    rw [List.foldl_cons, ih]
    rcases h : alistLookup ce.1 i2f with _ | tf <;> simp [h]

/-- The jump-edge emission loop does not touch the instruction list. -/
theorem emitJumpCalls_instructions (i2f : List (Nat × Nat))
    (cross : List (Nat × Nat)) (addr : Nat) (f : GroupedFunction)
    (jl : List (Nat × CallInfo)) :
    (emitJumpCalls i2f cross addr f jl).instructions = f.instructions := by
  unfold emitJumpCalls
  induction jl generalizing f with
  | nil => rfl
  | cons je tl ih =>
    rw [List.foldl_cons, ih]
    by_cases hc : (addr, je.1) ∈ cross
    · rcases h : alistLookup je.1 i2f with _ | tf <;> simp [hc, h]
    · simp [hc]

/-- The per-instruction build loop appends exactly the processed
instructions. -/
theorem buildFold_instructions (i2f : List (Nat × Nat)) (cross : List (Nat × Nat))
    (instrs : List (Nat × InstructionCost)) :
    ∀ f0 : GroupedFunction,
      (instrs.foldl (buildStep i2f cross) f0).instructions
        = f0.instructions ++ instrs := by
  induction instrs with
  | nil => intro f0; simp
  | cons i tl ih =>
    intro f0
    rw [List.foldl_cons, ih]
    have hstep : (buildStep i2f cross f0 i).instructions = f0.instructions ++ [i] := by
      unfold buildStep
      rw [emitJumpCalls_instructions, emitFunctionCalls_instructions]
    rw [hstep, List.append_assoc]
    rfl

/-- A built `GroupedFunction` lists exactly its bucket's instructions. -/
theorem buildGroupedFunction_instructions (i2f : List (Nat × Nat))
    (cross : List (Nat × Nat)) (k : Nat) (instrs : List (Nat × InstructionCost)) :
    (buildGroupedFunction i2f cross k instrs).instructions = instrs := by
  unfold buildGroupedFunction
  rw [buildFold_instructions]
  rfl

/-- The addresses listed across all grouped functions are a permutation of
the cost table's keys. -/
theorem allInstrAddrs_perm (data : ProfilerData) :
    List.Perm (allInstrAddrs (ConvertToGroupedData data))
      (data.instruction_costs.map Prod.fst) := by
  by_cases hemp : data.instruction_costs.isEmpty
  · have hnil : data.instruction_costs = [] := List.isEmpty_iff.mp hemp
    simp only [ConvertToGroupedData, hnil, allInstrAddrs]
    exact List.Perm.refl _
  · simp only [ConvertToGroupedData, if_neg hemp, allInstrAddrs]
    rw [List.map_map]
    rw [List.map_congr_left (g :=
      fun b : Nat × List (Nat × InstructionCost) => b.2.map Prod.fst)
      (fun b _ => by simp [Function.comp, buildGroupedFunction_instructions])]
    rw [show (List.map (fun b : Nat × List (Nat × InstructionCost) => b.2.map Prod.fst)
          (groupByOwner data.instruction_costs
            (functionEntries data.instruction_costs)))
        = List.map (List.map Prod.fst)
            (List.map Prod.snd (groupByOwner data.instruction_costs
              (functionEntries data.instruction_costs)))
      from (List.map_map _ _ _).symm]
    rw [← List.map_flatten]
    exact List.Perm.map Prod.fst (mvalues_groupByOwner _ _)

/-- Every instruction listed in a grouped function is owned by that
function's entry address in the sense of the largest-entry-below rule. -/
theorem convert_functions_owner (data : ProfilerData) :
    ∀ fe ∈ (ConvertToGroupedData data).functions, ∀ ic ∈ fe.2.instructions,
      IsOwner (functionEntries data.instruction_costs) ic.1 fe.1 := by
  intro fe hfe ic hic
  by_cases hemp : data.instruction_costs.isEmpty
  · simp only [ConvertToGroupedData, if_pos hemp] at hfe
    simp at hfe
  · simp only [ConvertToGroupedData, if_neg hemp] at hfe
    rcases List.mem_map.mp hfe with ⟨b, hb, rfl⟩
    rw [buildGroupedFunction_instructions] at hic
    have hown := groupByOwner_bucket (functionEntries data.instruction_costs)
      data.instruction_costs [] (by simp) b hb ic hic
    show IsOwner (functionEntries data.instruction_costs) ic.1 b.1
    rw [← hown]
    exact findOwner_isOwner _ _

/-- C4: in the output of `ConvertToGroupedData`, the instruction lists of
the grouped functions partition the instruction-cost table exactly — the
listed addresses are a permutation of the table's keys, membership agrees
with the table, each key appears exactly once — and the owning function of
every listed address is the largest entry point at or below it, or the
address itself when no entry point lies below. -/
theorem grouped_partition (data : ProfilerData)
    (hnd : (data.instruction_costs.map Prod.fst).Nodup) :
    List.Perm (allInstrAddrs (ConvertToGroupedData data))
      (data.instruction_costs.map Prod.fst) ∧
    (∀ a : Nat, a ∈ allInstrAddrs (ConvertToGroupedData data)
      ↔ a ∈ data.instruction_costs.map Prod.fst) ∧
    (∀ a ∈ data.instruction_costs.map Prod.fst,
      (allInstrAddrs (ConvertToGroupedData data)).count a = 1) ∧
    (∀ fe ∈ (ConvertToGroupedData data).functions, ∀ ic ∈ fe.2.instructions,
      IsOwner (functionEntries data.instruction_costs) ic.1 fe.1) := by
  have hperm := allInstrAddrs_perm data
  refine ⟨hperm, fun a => hperm.mem_iff, ?_, convert_functions_owner data⟩
  intro a ha
  rw [hperm.count_eq]
  exact List.count_eq_one_of_mem hnd ha

/-- Witness for C4 on a concrete state with four table entries and three
discovered entry points. -/
theorem grouped_partition_witness :
    List.Perm (allInstrAddrs (ConvertToGroupedData sampleJumpState))
      (sampleJumpState.instruction_costs.map Prod.fst) :=
  (grouped_partition sampleJumpState (by decide)).1

end Profiler
